import Mathlib

/-!
Verification development for the CASA tiled image store decoder in
`spectral_cube/io/casa_image.py`.

The embedding covers:
* `ArraylikeCasaData.__getitem__` (region reader): translation of python
  slices into the store's inclusive `blc`/`trc`/`inc` bounds (lines 128-178),
  the collapse of integer axes and the final transpose;
* `casa_image_array_reader` (lines 358-430) and `casa_image_dask_reader`
  (lines 434-489): assembly of the flat on-disk tile sequence into one array,
  and the byte-offset computation for each tile (`np.memmap(..., offset=...)`);
* the `ia.open` failure translation into an `IOError` (lines 96-103, 154-161).

Multi-dimensional arrays are embedded as a shape together with a total
indexing function; machine floats never need to be interpreted, so payload
elements are kept as raw 4-byte groups.
-/

namespace CasaImage

/-- An N-dimensional array: a shape (storage-axis order unless stated
otherwise) and a total indexing function.  Only values at indices within the
shape are meaningful. -/
structure NDArr (α : Type) where
  shape : List ℕ
  val : List ℕ → α

/-- Boolean in-bounds test: `idx` has the same rank as `sh` and is pointwise
smaller. -/
def inBoundsB : List ℕ → List ℕ → Bool
  | [], [] => true
  | i :: is, s :: ss => decide (i < s) && inBoundsB is ss
  | _, _ => false

/-- Extensional equality of embedded arrays: same shape and same values at
every in-bounds index. -/
def NDEq {α : Type} (A B : NDArr α) : Prop :=
  A.shape = B.shape ∧ ∀ idx : List ℕ, inBoundsB idx A.shape = true → A.val idx = B.val idx

/-- Numpy's `.transpose()` with no arguments: reverse the axis order. -/
def transposeArr {α : Type} (A : NDArr α) : NDArr α where
  shape := A.shape.reverse
  val := fun idx => A.val idx.reverse

/-- One per-axis entry of a key passed to `ArraylikeCasaData.__getitem__`,
after `sanitize_slices` has normalised the key to one integer or slice per
axis (for full-rank keys of integers and slices, `sanitize_slices` is the
identity, which is the case exercised here). -/
inductive CasaSlice where
  | intIdx (i : ℤ)
  | slc (start stop step : Option ℤ)
deriving DecidableEq

/-- Whether the entry is a python `slice` (as opposed to an integer). -/
def CasaSlice.isSlc : CasaSlice → Bool
  | .slc _ _ _ => true
  | .intIdx _ => false

/-- Source lines 139-141: `blc = [(-1 if slc.start is None else slc.start) if
hasattr(slc, 'start') else slc for slc in value]`. -/
def blcOf : CasaSlice → ℤ
  | .intIdx i => i
  | .slc st _ _ => st.getD (-1)

/-- Source lines 146-148: `trc = [((slc.stop-1 if slc.stop >= 1 else
slc.stop) if slc.stop is not None else -1) if hasattr(slc, 'stop') else slc
for slc in value]`. -/
def trcOf : CasaSlice → ℤ
  | .intIdx i => i
  | .slc _ none _ => -1
  | .slc _ (some e) _ => if 1 ≤ e then e - 1 else e

/-- Source line 149: `inc = [(slc.step or 1) if hasattr(slc, 'step') else 1
for slc in value]` (python `or` replaces both `None` and `0` by `1`). -/
def incOf : CasaSlice → ℤ
  | .intIdx _ => 1
  | .slc _ _ none => 1
  | .slc _ _ (some s) => if s = 0 then 1 else s

/-- Modelled from the spec: the store's lower bound, `-1` being the sentinel
for "from the beginning" (spec section 4.4). -/
def sliceLow (b : ℤ) : ℕ :=
  if b = -1 then 0 else b.toNat

/-- Modelled from the spec: the store's upper bound is inclusive, `-1` being
the sentinel for "to the end" (spec section 4.4 and the BLC/TRC glossary
entry). -/
def sliceHigh (L : ℕ) (t : ℤ) : ℕ :=
  if t = -1 then L - 1 else t.toNat

/-- Number of selected indices of the inclusive range `b..t` with stride
`s`. -/
def sliceCount (b t s : ℕ) : ℕ :=
  if t < b then 0 else (t - b) / s + 1

/-- Modelled from the spec: the indices a store axis of length `L` serves for
inclusive bounds `b..t` (with the `-1` sentinels) and stride `s`
(`ia.getchunk` is external to the repository; its bound convention is taken
from spec sections 4.4 and 6). -/
def sliceIndices (L : ℕ) (b t s : ℤ) : List ℕ :=
  (List.range (sliceCount (sliceLow b) (sliceHigh L t) s.toNat)).map
    (fun k => sliceLow b + k * s.toNat)

/-- Per-axis selected indices for one key entry (an integer `i` gives
`blc = trc = i`, hence the singleton `[i]`: the axis is still present, with
size 1, in the raw `getchunk` result). -/
def entryIndices (L : ℕ) (e : CasaSlice) : List ℕ :=
  sliceIndices L (blcOf e) (trcOf e) (incOf e)

/-- Four-way `zipWith`, used to pair each storage axis with its three
bounds. -/
def zipWith4 {α β γ δ ε : Type} (f : α → β → γ → δ → ε) :
    List α → List β → List γ → List δ → List ε
  | a :: as, b :: bs, c :: cs, d :: ds => f a b c d :: zipWith4 f as bs cs ds
  | _, _, _, _ => []

/-- Modelled from the spec: `ia.getchunk(blc=blc, trc=trc, inc=inc)` on a
storage-order array.  Every axis of the result is present (integer axes have
size 1); element `idx` of the result is the source element whose coordinate
on each axis is the `idx`-th selected index of that axis. -/
def getchunk {α : Type} (A : NDArr α) (blc trc inc : List ℤ) : NDArr α where
  shape := (zipWith4 sliceIndices A.shape blc trc inc).map List.length
  val := fun idx =>
    A.val (List.zipWith (fun l i => l.getD i 0) (zipWith4 sliceIndices A.shape blc trc inc) idx)

/-- Re-insert the collapsed (integer) axes of a reduced index: kept axes
(`true`) consume the next reduced coordinate, dropped axes (`false`) read
position 0, exactly like `data[tuple(new_view)]` with `0` at integer axes
(source lines 171-174). -/
def expandIdx : List Bool → List ℕ → List ℕ
  | [], _ => []
  | true :: ks, [] => 0 :: expandIdx ks []
  | true :: ks, i :: is => i :: expandIdx ks is
  | false :: ks, is => 0 :: expandIdx ks is

/-- Keep the entries of `xs` at the positions where `ks` is `true`. -/
def filterKept : List Bool → List ℕ → List ℕ
  | true :: ks, x :: xs => x :: filterKept ks xs
  | false :: ks, _ :: xs => filterKept ks xs
  | _, _ => []

/-- Source line 174, first half: `data[tuple(new_view)]` where `new_view`
keeps every sliced axis (`slice(None)`) and indexes every integer axis at
`0`. -/
def collapseArr {α : Type} (A : NDArr α) (keep : List Bool) : NDArr α where
  shape := filterKept keep A.shape
  val := fun idx => A.val (expandIdx keep idx)

/-- Source lines 128-178, `ArraylikeCasaData.__getitem__`: the key is
reversed (`value[::-1]`, storage order), the `blc`/`trc`/`inc` triples are
computed entry-wise, one `getchunk` is performed, the integer axes are
collapsed and the result is transposed back to logical order.  `A` is the
file's storage-order array. -/
def ArraylikeCasaData_getitem {α : Type} (A : NDArr α) (value0 : List CasaSlice) : NDArr α :=
  transposeArr
    (collapseArr
      (getchunk A (value0.reverse.map blcOf) (value0.reverse.map trcOf)
        (value0.reverse.map incOf))
      (value0.reverse.map CasaSlice.isSlc))

/-- Following the spec's words (section 4.4, for comparison with the code):
select directly on the logical-order array `B`, one entry per logical axis,
keeping sliced axes and collapsing integer axes, with no reversal and no
final transpose. -/
def logicalSelect {α : Type} (B : NDArr α) (entries : List CasaSlice) : NDArr α where
  shape := filterKept (entries.map CasaSlice.isSlc)
    ((List.zipWith entryIndices B.shape entries).map List.length)
  val := fun idx =>
    B.val (List.zipWith (fun l i => l.getD i 0) (List.zipWith entryIndices B.shape entries)
      (expandIdx (entries.map CasaSlice.isSlc) idx))

theorem sliceHigh_none (L : ℕ) : sliceHigh L (-1) = L - 1 := by
  simp [sliceHigh]

theorem sliceHigh_coe_sub_one (L : ℕ) (hL : 1 ≤ L) : sliceHigh L ((L : ℤ) - 1) = L - 1 := by
  unfold sliceHigh
  rw [if_neg (by omega)]
  omega

theorem sliceIndices_full (L : ℕ) (hL : 1 ≤ L) : sliceIndices L (-1) (-1) 1 = List.range L := by
  have h1 : sliceLow (-1) = 0 := by simp [sliceLow]
  unfold sliceIndices
  rw [h1, sliceHigh_none]
  have h4 : sliceCount 0 (L - 1) (Int.toNat 1) = L := by
    unfold sliceCount
    rw [if_neg (Nat.not_lt_zero _)]
    simp
    omega
  rw [h4]
  simp

theorem trcOf_none_eq_stop_len (L : ℕ) (hL : 1 ≤ L) (st stp : Option ℤ) (b s : ℤ) :
    sliceIndices L b (trcOf (CasaSlice.slc st none stp)) s =
      sliceIndices L b (trcOf (CasaSlice.slc st (some (L : ℤ)) stp)) s := by
  have h1 : trcOf (CasaSlice.slc st none stp) = -1 := rfl
  have h2 : trcOf (CasaSlice.slc st (some (L : ℤ)) stp) = (L : ℤ) - 1 := by
    simp only [trcOf]
    rw [if_pos (by omega)]
  rw [h1, h2]
  unfold sliceIndices
  rw [sliceHigh_none, sliceHigh_coe_sub_one L hL]

theorem entryIndices_stop_none_eq_len (L : ℕ) (hL : 1 ≤ L) (st stp : Option ℤ) :
    entryIndices L (CasaSlice.slc st none stp) =
      entryIndices L (CasaSlice.slc st (some (L : ℤ)) stp) := by
  unfold entryIndices
  have hb : blcOf (CasaSlice.slc st none stp) = blcOf (CasaSlice.slc st (some (L : ℤ)) stp) := rfl
  have hi : incOf (CasaSlice.slc st none stp) = incOf (CasaSlice.slc st (some (L : ℤ)) stp) := by
    cases stp <;> rfl
  rw [hb, hi]
  exact trcOf_none_eq_stop_len L hL st stp _ _

theorem entryIndices_stop_zero (L : ℕ) :
    entryIndices L (CasaSlice.slc none (some 0) none) = [0] := by
  have h2 : trcOf (CasaSlice.slc none (some 0) none) = 0 := rfl
  have hb : blcOf (CasaSlice.slc none (some 0) none) = -1 := rfl
  have hi : incOf (CasaSlice.slc none (some 0) none) = 1 := rfl
  unfold entryIndices
  rw [h2, hb, hi]
  unfold sliceIndices sliceLow sliceHigh sliceCount
  norm_num
  decide

theorem getitem_entry_congr {α : Type} (f : List ℕ → α) (L : ℕ) (e1 e2 : CasaSlice)
    (hidx : entryIndices L e1 = entryIndices L e2) (hk : e1.isSlc = e2.isSlc) :
    ArraylikeCasaData_getitem ⟨[L], f⟩ [e1] = ArraylikeCasaData_getitem ⟨[L], f⟩ [e2] := by
  unfold entryIndices at hidx
  unfold ArraylikeCasaData_getitem transposeArr collapseArr getchunk
  simp only [List.reverse_cons, List.reverse_nil, List.nil_append, List.map_cons, List.map_nil,
    zipWith4, hidx, hk]

/-- C1 (amended): the `trc` translation in `ArraylikeCasaData.__getitem__`
sends an absent stop to `-1`, a stop `e ≥ 1` to `e - 1`, and a stop of `0`
through unchanged (never to `-1`); an absent stop selects the same indices as
`stop = axisLength`; but a stop of `0`, being an inclusive upper bound `0`,
selects the single index `0` when the start is absent — a one-element axis,
not an empty one (and not a full one). -/
theorem c1_stop_bound_translation (st stp : Option ℤ) (e : ℤ) (he : 1 ≤ e)
    (L : ℕ) (hL : 1 ≤ L) (b s : ℤ) (f : List ℕ → ℕ) :
    trcOf (CasaSlice.slc st none stp) = -1 ∧
    trcOf (CasaSlice.slc st (some e) stp) = e - 1 ∧
    trcOf (CasaSlice.slc st (some 0) stp) = 0 ∧
    trcOf (CasaSlice.slc st (some 0) stp) ≠ -1 ∧
    sliceIndices L b (trcOf (CasaSlice.slc st none stp)) s =
      sliceIndices L b (trcOf (CasaSlice.slc st (some (L : ℤ)) stp)) s ∧
    ArraylikeCasaData_getitem ⟨[L], f⟩ [CasaSlice.slc st none stp] =
      ArraylikeCasaData_getitem ⟨[L], f⟩ [CasaSlice.slc st (some (L : ℤ)) stp] ∧
    entryIndices L (CasaSlice.slc none (some 0) none) = [0] := by
  refine ⟨rfl, ?_, rfl, by norm_num [trcOf], trcOf_none_eq_stop_len L hL st stp b s, ?_,
    entryIndices_stop_zero L⟩
  · simp only [trcOf]
    rw [if_pos he]
  · exact getitem_entry_congr f L _ _ (entryIndices_stop_none_eq_len L hL st stp) rfl

/-- C1 witness: the amended theorem applied at concrete inputs. -/
theorem c1_stop_bound_translation_witness :
    trcOf (CasaSlice.slc none none none) = -1 ∧
    trcOf (CasaSlice.slc none (some 2) none) = 2 - 1 ∧
    trcOf (CasaSlice.slc none (some 0) none) = 0 ∧
    trcOf (CasaSlice.slc none (some 0) none) ≠ -1 ∧
    sliceIndices 3 0 (trcOf (CasaSlice.slc none none none)) 1 =
      sliceIndices 3 0 (trcOf (CasaSlice.slc none (some (3 : ℤ)) none)) 1 ∧
    ArraylikeCasaData_getitem ⟨[3], fun _ => (0 : ℕ)⟩ [CasaSlice.slc none none none] =
      ArraylikeCasaData_getitem ⟨[3], fun _ => (0 : ℕ)⟩ [CasaSlice.slc none (some (3 : ℤ)) none] ∧
    entryIndices 3 (CasaSlice.slc none (some 0) none) = [0] :=
  c1_stop_bound_translation none none 2 (by decide) 3 (by decide) 0 1 (fun _ => 0)

/-- C1 counterexample: on a length-4 axis, `stop = 0` (start absent) yields a
one-element axis, not the empty axis the claim asserts. -/
theorem c1_stop_zero_not_empty :
    (ArraylikeCasaData_getitem ⟨[4], fun _ => (0 : ℕ)⟩
        [CasaSlice.slc none (some 0) none]).shape = [1] ∧
      ([1] : List ℕ) ≠ [0] := by
  exact ⟨rfl, by decide⟩

/-- C10: a present negative stop is passed through to `trc` unchanged; in
particular `stop = -1` produces the same `trc` as an absent stop, and a `trc`
of `-1` selects up to and including the last axis element (the full axis when
the start is absent and the step is 1), exactly as `trc = L - 1` does. -/
theorem c10_negative_stop_passthrough (st stp : Option ℤ) (e b s : ℤ) (hneg : e < 0)
    (L : ℕ) (hL : 1 ≤ L) :
    trcOf (CasaSlice.slc st (some e) stp) = e ∧
    trcOf (CasaSlice.slc st (some (-1)) stp) = trcOf (CasaSlice.slc st none stp) ∧
    sliceIndices L b (-1) s = sliceIndices L b ((L : ℤ) - 1) s ∧
    sliceIndices L (-1) (-1) 1 = List.range L ∧
    (L - 1) ∈ sliceIndices L (-1) (-1) 1 := by
  refine ⟨?_, rfl, ?_, sliceIndices_full L hL, ?_⟩
  · simp only [trcOf]
    rw [if_neg (by omega)]
  · unfold sliceIndices
    rw [sliceHigh_none, sliceHigh_coe_sub_one L hL]
  · rw [sliceIndices_full L hL]
    exact List.mem_range.mpr (by omega)

/-- C10 witness: the theorem applied at concrete inputs. -/
theorem c10_negative_stop_passthrough_witness :
    trcOf (CasaSlice.slc none (some (-2)) none) = -2 ∧
    trcOf (CasaSlice.slc none (some (-1)) none) = trcOf (CasaSlice.slc none none none) ∧
    sliceIndices 4 0 (-1) 1 = sliceIndices 4 0 ((4 : ℤ) - 1) 1 ∧
    sliceIndices 4 (-1) (-1) 1 = List.range 4 ∧
    (4 - 1) ∈ sliceIndices 4 (-1) (-1) 1 :=
  c10_negative_stop_passthrough none none (-2) 0 1 (by decide) 4 (by decide)

/-- Source lines 386-388 and 462-464: both full-array readers build tile `ii`
as `np.memmap(img_fn, dtype='float32', offset=ii*chunksize, shape=chunkshape,
order='F')` with `chunksize = np.product(chunkshape)`, an element count.
`np.memmap`'s `offset` parameter is measured in bytes, so the byte offset the
readers actually use for tile `ii` is `ii * chunksize`. -/
def memmapOffsetBytes (chunksize ii : ℕ) : ℕ := ii * chunksize

/-- Following the spec's words (section 4.2): `offsetOf(tileIndex) =
tileIndex × tileElementCount × elementSizeBytes`, with 4-byte float
elements. -/
def specTileOffsetBytes (chunksize ii : ℕ) : ℕ := ii * chunksize * 4

/-- C2: evaluated at tile index 1 of a `(2,2,2)` tile (`chunksize = 8`), the
readers seek to byte 8, not byte `1 × 8 × 4 = 32` as the claim requires: the
element count is passed where `np.memmap` expects bytes. -/
theorem c2_tile_offset_mismatch :
    memmapOffsetBytes 8 1 = 8 ∧ specTileOffsetBytes 8 1 = 32 ∧
      memmapOffsetBytes 8 1 ≠ specTileOffsetBytes 8 1 := by
  decide

/-- A python exception, as far as the `__getitem__`/`__init__` handlers can
observe one: an `AssertionError`, an `IOError`, or anything else. -/
inductive PyErr where
  | assertionError (msg : String)
  | ioError (msg : String)
  | otherError (kind msg : String)
deriving DecidableEq

/-- Whether the exception is an `AssertionError` (the only kind the source's
`except` clause catches). -/
def PyErr.isAssertion : PyErr → Bool
  | .assertionError _ => true
  | _ => false

/-- Boolean list-prefix test. -/
def isPrefixB {α : Type} [DecidableEq α] : List α → List α → Bool
  | [], _ => true
  | _ :: _, [] => false
  | a :: as, b :: bs => decide (a = b) && isPrefixB as bs

/-- Boolean contiguous-sublist test. -/
def isInfixB {α : Type} [DecidableEq α] (xs : List α) : List α → Bool
  | [] => isPrefixB xs []
  | y :: ys => isPrefixB xs (y :: ys) || isInfixB xs ys

/-- Python's `sub in s` substring test. -/
def pyIn (sub s : String) : Bool := isInfixB sub.toList s.toList

theorem isPrefixB_append {α : Type} [DecidableEq α] (xs suf : List α) :
    isPrefixB xs (xs ++ suf) = true := by
  induction xs with
  | nil => rfl
  | cons a as ih => simp [isPrefixB, ih]

theorem isPrefixB_refl {α : Type} [DecidableEq α] (xs : List α) : isPrefixB xs xs = true := by
  induction xs with
  | nil => rfl
  | cons a as ih => simp [isPrefixB, ih]

theorem isInfixB_of_isPrefixB {α : Type} [DecidableEq α] (xs t : List α)
    (h : isPrefixB xs t = true) : isInfixB xs t = true := by
  cases t with
  | nil => exact h
  | cons y ys => simp [isInfixB, h]

theorem isInfixB_append_right {α : Type} [DecidableEq α] (s t xs : List α)
    (h : isInfixB xs t = true) : isInfixB xs (s ++ t) = true := by
  induction s with
  | nil => exact h
  | cons a as ih => simp [isInfixB, ih]

/-- The marker CASA puts in the `AssertionError` raised for a missing path
(source comment, lines 99 and 157). -/
def reqPathMarker : String := "must be of cReqPath type"

/-- The message of the `IOError` raised by the handler (lines 100-101 and
158-159). -/
def notFoundMsg (filename exmsg : String) : String :=
  "File " ++ filename ++ " " ++ "not found" ++ ".  Error was: " ++ exmsg

/-- Modelled from the spec: `casatools`' `ia.open` (external to the
repository) fails on a missing path with an `AssertionError` whose message
contains the `cReqPath` marker; the spec requires "Fails with NotFound if the
directory or payload file does not exist" and the handler keys on exactly
this marker.  The filesystem is the list of existing paths. -/
def iaOpenRaw (fs : List String) (filename : String) : Except PyErr Unit :=
  if filename ∈ fs then Except.ok ()
  else Except.error (PyErr.assertionError
    ("Exception: Invalid Table operation: Table " ++ filename ++ " " ++ reqPathMarker))

/-- Source lines 96-103 and 154-161: the `except AssertionError` handler
raises `IOError(...)` exactly when the caught message contains the marker and
re-raises the `AssertionError` unchanged otherwise; any non-`AssertionError`
failure bypasses the handler and propagates unchanged. -/
def openTranslate (filename : String) : PyErr → PyErr
  | .assertionError m =>
      if pyIn reqPathMarker m then PyErr.ioError (notFoundMsg filename m)
      else PyErr.assertionError m
  | e => e

/-- `ia.open` as seen by the callers: the raw open with its failure passed
through the handler. -/
def iaOpenChecked (fs : List String) (filename : String) : Except PyErr Unit :=
  match iaOpenRaw fs filename with
  | .ok u => .ok u
  | .error e => .error (openTranslate filename e)

/-- Source lines 93-111 (`getshape` inside `ArraylikeCasaData.__init__`):
open the table with the translated failure, then record the reversed
`ia.shape()` and the pixel type. -/
def ArraylikeCasaData_getshape (fs : List String) (filename : String)
    (storageShape : List ℕ) (pixeltype : String) : Except PyErr (List ℕ × String) :=
  match iaOpenChecked fs filename with
  | .error e => .error e
  | .ok _ => .ok (storageShape.reverse, pixeltype)

/-- Observable `ia`-tool events issued by one `__getitem__` invocation. -/
inductive IaEvent where
  | openCall (filename : String) (cache : Bool)
  | getchunkCall (blc trc inc : List ℤ)
  | doneCall
  | closeCall
deriving DecidableEq

/-- Whether an event is a native `getchunk` read. -/
def IaEvent.isGetchunk : IaEvent → Bool
  | .getchunkCall _ _ _ => true
  | _ => false

/-- The fields `__init__` stores on an `ArraylikeCasaData` object (lines
84-121); `cache` stands for the `_cache` dict. -/
structure ArraylikeCasaDataState where
  filename : String
  shape : List ℕ
  ndim : ℕ
  dtype : String
  chunksize : List ℕ
  cache : List (String × ℕ)
deriving DecidableEq

/-- Source lines 128-178 with the object state and the `ia`-tool calls made
explicit: `__getitem__` opens the table (translated failure on a missing
path), performs one `getchunk` with the computed storage-order bounds, calls
`done` and `close`, and returns the collapsed and transposed data; the python
body never assigns to `self`, so the state component is returned as it was
received.  `A` is the file's storage-order array. -/
def ArraylikeCasaData_getitem_run {α : Type} (fs : List String)
    (o : ArraylikeCasaDataState) (A : NDArr α) (value0 : List CasaSlice) :
    Except PyErr (NDArr α) × List IaEvent × ArraylikeCasaDataState :=
  match iaOpenChecked fs o.filename with
  | .error e => (.error e, [IaEvent.openCall o.filename false], o)
  | .ok _ =>
      (.ok (ArraylikeCasaData_getitem A value0),
        [IaEvent.openCall o.filename false,
         IaEvent.getchunkCall (value0.reverse.map blcOf) (value0.reverse.map trcOf)
           (value0.reverse.map incOf),
         IaEvent.doneCall, IaEvent.closeCall], o)

/-- C7: one `__getitem__` invocation with a successful open produces exactly
the trace open / getchunk / done / close — a single native read, file opened
only for the duration of the call and closed before returning — and hands
back every object field (filename, shape, ndim, dtype, chunksize, `_cache`)
unchanged. -/
theorem c7_single_read_state_unchanged {α : Type} (fs : List String)
    (o : ArraylikeCasaDataState) (A : NDArr α) (value0 : List CasaSlice)
    (hopen : o.filename ∈ fs) :
    (ArraylikeCasaData_getitem_run fs o A value0).2.1 =
      [IaEvent.openCall o.filename false,
       IaEvent.getchunkCall (value0.reverse.map blcOf) (value0.reverse.map trcOf)
         (value0.reverse.map incOf),
       IaEvent.doneCall, IaEvent.closeCall] ∧
    ((ArraylikeCasaData_getitem_run fs o A value0).2.1.filter IaEvent.isGetchunk).length = 1 ∧
    (ArraylikeCasaData_getitem_run fs o A value0).2.2 = o ∧
    (ArraylikeCasaData_getitem_run fs o A value0).1 =
      Except.ok (ArraylikeCasaData_getitem A value0) := by
  have h : iaOpenChecked fs o.filename = Except.ok () := by
    unfold iaOpenChecked iaOpenRaw
    rw [if_pos hopen]
  unfold ArraylikeCasaData_getitem_run
  rw [h]
  exact ⟨rfl, rfl, rfl, rfl⟩

/-- C7 witness: the theorem applied to a concrete object, file system, array
and key. -/
theorem c7_single_read_state_unchanged_witness :
    (ArraylikeCasaData_getitem_run ["f.image"] ⟨"f.image", [2], 1, "float", [2], []⟩
        (⟨[2], fun _ => (0 : ℕ)⟩ : NDArr ℕ) [CasaSlice.slc none none none]).2.1 =
      [IaEvent.openCall "f.image" false,
       IaEvent.getchunkCall ([CasaSlice.slc none none none].reverse.map blcOf)
         ([CasaSlice.slc none none none].reverse.map trcOf)
         ([CasaSlice.slc none none none].reverse.map incOf),
       IaEvent.doneCall, IaEvent.closeCall] ∧
    ((ArraylikeCasaData_getitem_run ["f.image"] ⟨"f.image", [2], 1, "float", [2], []⟩
        (⟨[2], fun _ => (0 : ℕ)⟩ : NDArr ℕ)
        [CasaSlice.slc none none none]).2.1.filter IaEvent.isGetchunk).length = 1 ∧
    (ArraylikeCasaData_getitem_run ["f.image"] ⟨"f.image", [2], 1, "float", [2], []⟩
        (⟨[2], fun _ => (0 : ℕ)⟩ : NDArr ℕ) [CasaSlice.slc none none none]).2.2 =
      ⟨"f.image", [2], 1, "float", [2], []⟩ ∧
    (ArraylikeCasaData_getitem_run ["f.image"] ⟨"f.image", [2], 1, "float", [2], []⟩
        (⟨[2], fun _ => (0 : ℕ)⟩ : NDArr ℕ) [CasaSlice.slc none none none]).1 =
      Except.ok (ArraylikeCasaData_getitem ⟨[2], fun _ => (0 : ℕ)⟩
        [CasaSlice.slc none none none]) :=
  c7_single_read_state_unchanged ["f.image"] ⟨"f.image", [2], 1, "float", [2], []⟩
    ⟨[2], fun _ => (0 : ℕ)⟩ [CasaSlice.slc none none none] (by simp)

/-- C8: a missing path makes both the geometry open (`__init__`'s
`getshape`) and the region read fail with an `IOError` whose message reports
"not found"; an `AssertionError` from `ia.open` is translated into that
`IOError` exactly when its message contains the `cReqPath` marker; every
non-`AssertionError` open failure propagates unchanged. -/
theorem c8_notfound_translation {α : Type} (fs : List String) (fn : String)
    (storageShape : List ℕ) (pixeltype : String) (o : ArraylikeCasaDataState)
    (A : NDArr α) (value0 : List CasaSlice) (m : String) (e : PyErr)
    (hmiss : fn ∉ fs) (hfn : o.filename = fn) (hne : e.isAssertion = false) :
    (∃ m1, ArraylikeCasaData_getshape fs fn storageShape pixeltype =
        Except.error (PyErr.ioError m1) ∧ pyIn "not found" m1 = true) ∧
    (∃ m2, (ArraylikeCasaData_getitem_run fs o A value0).1 =
        Except.error (PyErr.ioError m2) ∧ pyIn "not found" m2 = true) ∧
    ((∃ m3, openTranslate fn (PyErr.assertionError m) = PyErr.ioError m3) ↔
      pyIn reqPathMarker m = true) ∧
    openTranslate fn e = e := by
  have hraw : pyIn reqPathMarker
      ("Exception: Invalid Table operation: Table " ++ fn ++ " " ++ reqPathMarker) = true := by
    show isInfixB reqPathMarker.toList
      ("Exception: Invalid Table operation: Table ".toList ++ fn.toList ++ " ".toList ++
        reqPathMarker.toList) = true
    simp only [List.append_assoc]
    apply isInfixB_append_right
    apply isInfixB_append_right
    apply isInfixB_append_right
    exact isInfixB_of_isPrefixB _ _ (isPrefixB_refl _)
  have hmsg : ∀ ex, pyIn "not found" (notFoundMsg fn ex) = true := by
    intro ex
    show isInfixB "not found".toList
      ("File ".toList ++ fn.toList ++ " ".toList ++ "not found".toList ++
        ".  Error was: ".toList ++ ex.toList) = true
    simp only [List.append_assoc]
    apply isInfixB_append_right
    apply isInfixB_append_right
    apply isInfixB_append_right
    exact isInfixB_of_isPrefixB _ _ (isPrefixB_append _ _)
  have hopen : iaOpenChecked fs fn = Except.error (PyErr.ioError
      (notFoundMsg fn ("Exception: Invalid Table operation: Table " ++ fn ++ " " ++ reqPathMarker))) := by
    unfold iaOpenChecked iaOpenRaw openTranslate
    rw [if_neg hmiss]
    simp only [hraw, if_pos]
  refine ⟨⟨notFoundMsg fn
      ("Exception: Invalid Table operation: Table " ++ fn ++ " " ++ reqPathMarker), ?_, hmsg _⟩,
    ⟨notFoundMsg fn
      ("Exception: Invalid Table operation: Table " ++ fn ++ " " ++ reqPathMarker), ?_, hmsg _⟩,
    ?_, ?_⟩
  · unfold ArraylikeCasaData_getshape
    rw [hopen]
  · unfold ArraylikeCasaData_getitem_run
    rw [hfn, hopen]
  · constructor
    · rintro ⟨m3, hm3⟩
      by_contra hc
      rw [Bool.not_eq_true] at hc
      simp only [openTranslate, hc] at hm3
      simp at hm3
    · intro hc
      exact ⟨notFoundMsg fn m, by simp [openTranslate, hc]⟩
  · cases e with
    | assertionError m' => simp [PyErr.isAssertion] at hne
    | ioError m' => rfl
    | otherError k m' => rfl

/-- C8 witness: the theorem applied to a concrete missing path, object and
non-assertion failure. -/
theorem c8_notfound_translation_witness :
    (∃ m1, ArraylikeCasaData_getshape ["a.image"] "b.image" [3] "float" =
        Except.error (PyErr.ioError m1) ∧ pyIn "not found" m1 = true) ∧
    (∃ m2, (ArraylikeCasaData_getitem_run ["a.image"] ⟨"b.image", [3], 1, "float", [3], []⟩
        (⟨[3], fun _ => (0 : ℕ)⟩ : NDArr ℕ) [CasaSlice.slc none none none]).1 =
        Except.error (PyErr.ioError m2) ∧ pyIn "not found" m2 = true) ∧
    ((∃ m3, openTranslate "b.image" (PyErr.assertionError "boom") = PyErr.ioError m3) ↔
      pyIn reqPathMarker "boom" = true) ∧
    openTranslate "b.image" (PyErr.otherError "RuntimeError" "table damaged") =
      PyErr.otherError "RuntimeError" "table damaged" :=
  c8_notfound_translation ["a.image"] "b.image" [3] "float"
    ⟨"b.image", [3], 1, "float", [3], []⟩ ⟨[3], fun _ => (0 : ℕ)⟩
    [CasaSlice.slc none none none] "boom" (PyErr.otherError "RuntimeError" "table damaged")
    (by simp) rfl rfl

/-- The placeholder array (`np.concatenate` of an empty list raises in the
source; the geometries considered never reach it). -/
def dfltArr {α : Type} [Inhabited α] : NDArr α := ⟨[], fun _ => default⟩

/-- Binary concatenation along axis `k` (the axis-`k` extents add; an index
below the first extent reads the left operand, otherwise the right one,
shifted). -/
def concat2 {α : Type} (k : ℕ) (A B : NDArr α) : NDArr α where
  shape := A.shape.set k (A.shape.getD k 0 + B.shape.getD k 0)
  val := fun idx =>
    if idx.getD k 0 < A.shape.getD k 0 then A.val idx
    else B.val (idx.set k (idx.getD k 0 - A.shape.getD k 0))

/-- `np.concatenate(args, axis=k)` and `dask.array.concatenate(args,
axis=k)`: fold the binary concatenation over the list. -/
def concatMany {α : Type} [Inhabited α] (k : ℕ) : List (NDArr α) → NDArr α
  | [] => dfltArr
  | A :: rest => rest.foldl (concat2 k) A

/-- Python's strided slice `l[i::c]` for `c ≥ 1`, via a countdown: take an
element when the countdown hits 0 and restart it at `c - 1`. -/
def everyNthA {α : Type} : List α → ℕ → ℕ → List α
  | [], _, _ => []
  | x :: xs, 0, c => x :: everyNthA xs (c - 1) c
  | _ :: xs, n + 1, c => everyNthA xs n c

/-- Python's `l[i::c]`. -/
def everyNth {α : Type} (l : List α) (i c : ℕ) : List α := everyNthA l i c

/-- Product of a list of extents (`np.product`). -/
def prodList (l : List ℕ) : ℕ := l.foldl (· * ·) 1

/-- Product of the first `k` extents: the `cut = np.product(remaining_dims)`
of the eager reader at iteration `kk = k`. -/
def prodTake (stks : List ℕ) (k : ℕ) : ℕ := prodList (stks.take k)

/-- Source lines 398-413, the concatenation loop of `casa_image_array_reader`
(taken on the integral tile counts: the source computes `stacks` by float
division, which agrees with the integer counts whenever the geometry is
divisible, the only case in which this loop's asserts pass in general): at
iteration `kk`, descending from the last axis, `cut = prod(stacks[:kk])` and
the strided groups `rslt[ii::cut]` are concatenated along axis `kk`
(`rslt = [np.concatenate(rslt[ii::cut], kk) for ii in range(cut)]`); at
`kk = 0` the whole list is concatenated along axis 0. -/
def fstep {α : Type} [Inhabited α] (stks : List ℕ) : ℕ → List (NDArr α) → List (NDArr α)
  | 0, rslt => [concatMany 0 rslt]
  | kk + 1, rslt =>
      fstep stks kk ((List.range (prodTake stks (kk + 1))).map
        (fun ii => concatMany (kk + 1) (everyNth rslt ii (prodTake stks (kk + 1)))))

/-- Source lines 358-430 (`casa_image_array_reader`): assemble the flat tile
list into one array with the strided-grouping loop. -/
def casa_image_array_reader_assemble {α : Type} [Inhabited α]
    (stks : List ℕ) (chunks : List (NDArr α)) : NDArr α :=
  (fstep stks (stks.length - 1) chunks).headD dfltArr

/-- Source lines 469-481, the concatenation loop of `casa_image_dask_reader`:
`idim` descends from the last axis to the first, axes with a single tile are
skipped, and otherwise the consecutive groups `chunks[i*s:(i+1)*s]`
(`s = stacks[idim]`) are concatenated along axis `idim`; the tracked
`nchunks` always equals `len(chunks)`. -/
def dstep {α : Type} [Inhabited α] (stks : List ℕ) : ℕ → List (NDArr α) → List (NDArr α)
  | 0, chunks => chunks
  | k + 1, chunks =>
      dstep stks k
        (if stks.getD k 1 = 1 then chunks
         else
           (List.range (chunks.length / stks.getD k 1)).map
             (fun i => concatMany k ((chunks.drop (i * stks.getD k 1)).take (stks.getD k 1))))

/-- Source lines 434-489 (`casa_image_dask_reader`): assemble the flat tile
list with the consecutive-grouping loop and return `chunks[0]`. -/
def casa_image_dask_reader_assemble {α : Type} [Inhabited α]
    (stks : List ℕ) (chunks : List (NDArr α)) : NDArr α :=
  (dstep stks stks.length chunks).headD dfltArr

/-- Fortran-order (`order='F'`) flat element index within shape `sh`: the
first axis varies fastest. -/
def fortranIndex : List ℕ → List ℕ → ℕ
  | s :: sh, i :: idx => i + s * fortranIndex sh idx
  | _, _ => 0

/-- The 4 raw bytes of float element `j` of a float32 sequence starting at
byte `off` of `payload` (float bit patterns are never interpreted). -/
def elemBytes (payload : List ℕ) (off j : ℕ) : List ℕ :=
  (payload.drop (off + 4 * j)).take 4

/-- `np.memmap(img_fn, dtype='float32', offset=off, shape=sh, order='F')`
over a payload of raw bytes: fails, as numpy does, when the file is too
short for the requested window, and otherwise is the Fortran-ordered window
whose elements are kept as their 4 raw bytes. -/
def readTileBytes (payload : List ℕ) (off count : ℕ) (sh : List ℕ) : Option (NDArr (List ℕ)) :=
  if off + 4 * count ≤ payload.length then
    some ⟨sh, fun idx => elemBytes payload off (fortranIndex sh idx)⟩
  else none

/-- Source lines 439-489, `casa_image_dask_reader` end to end on the
`table.f0_TSM0` payload: take `chunkshape` and `totalshape` from the
metadata, memmap the `nchunks = prod(totalshape) // prod(chunkshape)` tiles
at byte offsets `ii * chunksize` (see `memmapOffsetBytes`), and assemble
them with `stacks = totalshape // chunkshape`.  The bucket size
`_bucketsize` is part of the metadata record but the source never reads it:
no scalar-broadcast and no irregular-geometry check is made. -/
def casa_image_dask_reader_read (chunkshape totalshape : List ℕ) (_bucketsize : ℕ)
    (payload : List ℕ) : Option (NDArr (List ℕ)) :=
  ((List.range (prodList totalshape / prodList chunkshape)).mapM
      (fun ii => readTileBytes payload (memmapOffsetBytes (prodList chunkshape) ii)
        (prodList chunkshape) chunkshape)).map
    (casa_image_dask_reader_assemble (List.zipWith (· / ·) totalshape chunkshape))

/-- Modelled from the spec (sections 4.1 and 8), absent from the source: the
required scalar-broadcast read — when `bucketSizeBytes = 2 ×
elementSizeBytes`, decode the single scalar from the first bytes of the
payload and broadcast it over the declared total shape. -/
def scalarBroadcastRead (totalshape : List ℕ) (payload : List ℕ) : Option (NDArr (List ℕ)) :=
  if 4 ≤ payload.length then some ⟨totalshape, fun _ => payload.take 4⟩ else none

/-- C3: `casa_image_dask_reader` concatenates from the last dimension inward
but returns the result in storage-axis order with no final transpose: a
single-tile store declared with `CubeShape = (2, 1)` comes back with shape
`[2, 1]` and not the reversed logical shape `[1, 2]` that the claim (and the
repository's own round-trip test) requires. -/
theorem c3_result_not_transposed :
    (casa_image_dask_reader_read [2, 1] [2, 1] 32 (List.range 8)).map NDArr.shape =
        some [2, 1] ∧
      List.reverse [2, 1] = [1, 2] ∧ ([2, 1] : List ℕ) ≠ [1, 2] := by
  exact ⟨by decide, rfl, by decide⟩

/-- C4: a metadata record with `totalShape = (3,)` not divisible by
`tileShape = (2,)` is not rejected: the dask reader floors the tile count
and silently returns an array of shape `[2]` instead of the declared `[3]`,
with no UnsupportedFormat or fatal geometry error. -/
theorem c4_irregular_geometry_not_rejected :
    (casa_image_dask_reader_read [2] [3] 8 (List.range 16)).isSome = true ∧
      (casa_image_dask_reader_read [2] [3] 8 (List.range 16)).map NDArr.shape = some [2] ∧
      ([2] : List ℕ) ≠ [3] := by
  exact ⟨by decide, by decide, by decide⟩

/-- C5: the dask reader never inspects the bucket size, so on a
scalar-broadcast store (`bucketSizeBytes = 8 = 2 × elementSizeBytes`,
payload of 8 bytes, declared shape `(2, 2)`, tile shape `(2, 2)`) its first
memmap asks for 16 bytes and fails: no array is produced at all, while the
claim requires the decoded scalar broadcast over the total shape (which the
spec-modelled decode produces). -/
theorem c5_scalar_broadcast_unsupported :
    (casa_image_dask_reader_read [2, 2] [2, 2] 8 (List.range 8)).isNone = true ∧
      (scalarBroadcastRead [2, 2] (List.range 8)).isSome = true := by
  exact ⟨by decide, by decide⟩

/-- The 2×2 grid of 1×1 tiles with pairwise distinct values used to separate
the two readers. -/
def c9tiles : List (NDArr ℕ) :=
  [⟨[1, 1], fun _ => 0⟩, ⟨[1, 1], fun _ => 1⟩, ⟨[1, 1], fun _ => 2⟩, ⟨[1, 1], fun _ => 3⟩]

/-- C9 counterexample: on a 2×2 tile grid of 1×1 tiles with distinct values
the two readers place the tiles differently — the eager reader groups with
stride (tiles enumerated first-axis-fastest), the dask reader groups
consecutively (last-axis-fastest) — so entry `(0, 1)` is 2 in one result and
1 in the other. -/
theorem c9_readers_disagree :
    ¬ NDEq (casa_image_array_reader_assemble [2, 2] c9tiles)
      (casa_image_dask_reader_assemble [2, 2] c9tiles) := by
  rintro ⟨hsh, hval⟩
  exact absurd (hval [0, 1] (by decide)) (by decide)

instance {α : Type} [Inhabited α] : Inhabited (NDArr α) := ⟨dfltArr⟩

theorem concatMany_singleton {α : Type} [Inhabited α] (k : ℕ) (A : NDArr α) :
    concatMany k [A] = A := rfl

theorem everyNthA_nil_of_le {α : Type} (l : List α) (n c : ℕ) (h : l.length ≤ n) :
    everyNthA l n c = [] := by
  induction l generalizing n with
  | nil => rfl
  | cons x xs ih =>
      cases n with
      | zero => simp at h
      | succ n' => exact ih n' (by simp [List.length_cons] at h; omega)

theorem everyNth_single {α : Type} [Inhabited α] (l : List α) (ii s : ℕ)
    (h1 : ii < l.length) (h2 : l.length ≤ ii + s) :
    everyNth l ii s = [l.getD ii default] := by
  induction l generalizing ii with
  | nil => simp at h1
  | cons x xs ih =>
      cases ii with
      | zero =>
          show x :: everyNthA xs (s - 1) s = [x]
          rw [everyNthA_nil_of_le xs (s - 1) s (by simp [List.length_cons] at h2; omega)]
      | succ ii' =>
          show everyNthA xs ii' s = [xs.getD ii' default]
          exact ih ii' (by simp at h1; omega) (by simp at h2; omega)

theorem everyNth_zero_one {α : Type} (l : List α) : everyNth l 0 1 = l := by
  induction l with
  | nil => rfl
  | cons x xs ih =>
      show x :: everyNth xs 0 1 = x :: xs
      rw [ih]

theorem map_range_getD {α : Type} [Inhabited α] (l : List α) :
    (List.range l.length).map (fun i => l.getD i default) = l := by
  induction l with
  | nil => rfl
  | cons x xs ih =>
      rw [List.length_cons, List.range_succ_eq_map, List.map_cons, List.map_map]
      have h : ((fun i => (x :: xs).getD i default) ∘ Nat.succ) = fun i => xs.getD i default := by
        funext i
        rfl
      rw [h, ih]
      rfl

theorem group_everyNth_id {α : Type} [Inhabited α] (k s : ℕ) (l : List (NDArr α))
    (hlen : l.length = s) :
    (List.range s).map (fun ii => concatMany k (everyNth l ii s)) = l := by
  subst hlen
  have h : ∀ ii ∈ List.range l.length,
      concatMany k (everyNth l ii l.length) = l.getD ii default := by
    intro ii hii
    rw [everyNth_single l ii l.length (List.mem_range.mp hii) (by omega), concatMany_singleton]
  rw [List.map_congr_left h, map_range_getD]

theorem foldl_mul_replicate_one (n c : ℕ) : List.foldl (· * ·) c (List.replicate n 1) = c := by
  induction n generalizing c with
  | zero => rfl
  | succ n' ih =>
      show List.foldl (· * ·) (c * 1) (List.replicate n' 1) = c
      rw [Nat.mul_one]
      exact ih c

theorem prodList_replicate_one (n : ℕ) : prodList (List.replicate n 1) = 1 :=
  foldl_mul_replicate_one n 1

theorem prodList_one_spike (a q s : ℕ) :
    prodList (List.replicate a 1 ++ s :: List.replicate q 1) = s := by
  unfold prodList
  rw [List.foldl_append _ _ _ _, foldl_mul_replicate_one a 1]
  show List.foldl (· * ·) (1 * s) (List.replicate q 1) = s
  rw [Nat.one_mul]
  exact foldl_mul_replicate_one q s

theorem prodTake_spike_le (a b s m : ℕ) (h : m ≤ a) :
    prodTake (List.replicate a 1 ++ s :: List.replicate b 1) m = 1 := by
  unfold prodTake
  rw [List.take_append_of_le_length (by simpa using h), List.take_replicate,
    Nat.min_eq_left h]
  exact prodList_replicate_one m

theorem prodTake_spike_gt (a b s m : ℕ) (h : a < m) :
    prodTake (List.replicate a 1 ++ s :: List.replicate b 1) m = s := by
  unfold prodTake
  obtain ⟨j, hj⟩ : ∃ j, m = a + (j + 1) := ⟨m - a - 1, by omega⟩
  have ha : m = (List.replicate a (1 : ℕ)).length + (j + 1) := by simpa using hj
  rw [ha, List.take_append]
  show prodList (List.replicate a 1 ++ s :: (List.replicate b 1).take j) = s
  rw [List.take_replicate]
  exact prodList_one_spike a (min j b) s

theorem getD_replicate_one (b j : ℕ) : (List.replicate b (1 : ℕ)).getD j 1 = 1 := by
  induction b generalizing j with
  | zero => cases j <;> rfl
  | succ b' ih =>
      cases j with
      | zero => rfl
      | succ j' => exact ih j'

theorem getD_spike (a b s j : ℕ) :
    (List.replicate a 1 ++ s :: List.replicate b 1).getD j 1 = if j = a then s else 1 := by
  induction a generalizing j with
  | zero =>
      cases j with
      | zero => rfl
      | succ j' =>
          show (List.replicate b 1).getD j' 1 = _
          rw [getD_replicate_one]
          simp
  | succ a' ih =>
      cases j with
      | zero =>
          rw [if_neg (by omega)]
          rfl
      | succ j' =>
          show (List.replicate a' 1 ++ s :: List.replicate b 1).getD j' 1 = _
          rw [ih j']
          by_cases hc : j' = a'
          · simp [hc]
          · rw [if_neg hc, if_neg (by omega)]

theorem dstep_ones {α : Type} [Inhabited α] (stks : List ℕ) (m k : ℕ)
    (chunks : List (NDArr α)) (hkm : k ≤ m)
    (h : ∀ i, k ≤ i → i < m → stks.getD i 1 = 1) :
    dstep stks m chunks = dstep stks k chunks := by
  induction m with
  | zero =>
      have h0 : k = 0 := by omega
      rw [h0]
  | succ m' ih =>
      rcases Nat.eq_or_lt_of_le hkm with heq | hlt
      · rw [heq]
      · have h1 : stks.getD m' 1 = 1 := h m' (by omega) (by omega)
        simp only [dstep]
        rw [if_pos h1]
        exact ih (by omega) (fun i hi1 hi2 => h i hi1 (by omega))

theorem dstep_spike_eval {α : Type} [Inhabited α] (a b s : ℕ) (hs : 1 ≤ s)
    (chunks : List (NDArr α)) (hlen : chunks.length = s) :
    dstep (List.replicate a 1 ++ s :: List.replicate b 1) (a + 1 + b) chunks
      = [concatMany a chunks] := by
  have hgd : (List.replicate a 1 ++ s :: List.replicate b 1).getD a 1 = s := by
    rw [getD_spike, if_pos rfl]
  have hhigh : dstep (List.replicate a 1 ++ s :: List.replicate b 1) (a + 1 + b) chunks
      = dstep (List.replicate a 1 ++ s :: List.replicate b 1) (a + 1) chunks :=
    dstep_ones _ _ _ _ (by omega)
      (fun i hi1 hi2 => by rw [getD_spike, if_neg (by omega)])
  have hlow : ∀ l : List (NDArr α),
      dstep (List.replicate a 1 ++ s :: List.replicate b 1) a l = l := by
    intro l
    have h0 := dstep_ones (List.replicate a 1 ++ s :: List.replicate b 1) a 0 l (by omega)
      (fun i hi1 hi2 => by rw [getD_spike, if_neg (by omega)])
    exact h0
  rw [hhigh]
  simp only [dstep]
  by_cases hs1 : s = 1
  · subst hs1
    obtain ⟨c, hc⟩ := List.length_eq_one.mp hlen
    subst hc
    rw [hgd, if_pos rfl, hlow]
    rfl
  · rw [hgd, if_neg hs1, hlen, Nat.div_self (by omega)]
    have hr1 : List.range 1 = [0] := rfl
    have htake : chunks.take s = chunks := by
      rw [← hlen]
      exact List.take_length chunks
    rw [hr1, List.map_cons, List.map_nil, Nat.zero_mul, List.drop_zero, htake]
    exact hlow _

theorem fstep_spike_high {α : Type} [Inhabited α] (a b s : ℕ)
    (chunks : List (NDArr α)) (hlen : chunks.length = s) (j : ℕ) :
    fstep (List.replicate a 1 ++ s :: List.replicate b 1) (a + j) chunks
      = fstep (List.replicate a 1 ++ s :: List.replicate b 1) a chunks := by
  induction j with
  | zero => rfl
  | succ j' ih =>
      have hcut : prodTake (List.replicate a 1 ++ s :: List.replicate b 1) (a + j' + 1) = s :=
        prodTake_spike_gt a b s _ (by omega)
      show fstep (List.replicate a 1 ++ s :: List.replicate b 1) (a + j')
          ((List.range (prodTake (List.replicate a 1 ++ s :: List.replicate b 1) (a + j' + 1))).map
            (fun ii => concatMany (a + j' + 1)
              (everyNth chunks ii
                (prodTake (List.replicate a 1 ++ s :: List.replicate b 1) (a + j' + 1))))) = _
      rw [hcut, group_everyNth_id (a + j' + 1) s chunks hlen]
      exact ih

theorem fstep_spike_low {α : Type} [Inhabited α] (a b s : ℕ) (X : NDArr α) (m : ℕ) (hm : m ≤ a) :
    fstep (List.replicate a 1 ++ s :: List.replicate b 1) m [X] = [X] := by
  induction m with
  | zero =>
      show [concatMany 0 [X]] = [X]
      rw [concatMany_singleton]
  | succ m' ih =>
      have hcut : prodTake (List.replicate a 1 ++ s :: List.replicate b 1) (m' + 1) = 1 :=
        prodTake_spike_le a b s _ (by omega)
      show fstep (List.replicate a 1 ++ s :: List.replicate b 1) m'
          ((List.range (prodTake (List.replicate a 1 ++ s :: List.replicate b 1) (m' + 1))).map
            (fun ii => concatMany (m' + 1)
              (everyNth [X] ii
                (prodTake (List.replicate a 1 ++ s :: List.replicate b 1) (m' + 1))))) = _
      rw [hcut]
      have hr1 : List.range 1 = [0] := rfl
      rw [hr1, List.map_cons, List.map_nil, everyNth_zero_one, concatMany_singleton]
      exact ih (by omega)

theorem fstep_spike_eval {α : Type} [Inhabited α] (a b s : ℕ)
    (chunks : List (NDArr α)) (hlen : chunks.length = s) :
    fstep (List.replicate a 1 ++ s :: List.replicate b 1)
        ((List.replicate a 1 ++ s :: List.replicate b 1).length - 1) chunks
      = [concatMany a chunks] := by
  have hlen2 : (List.replicate a 1 ++ s :: List.replicate b 1).length - 1 = a + b := by
    simp
  rw [hlen2, fstep_spike_high a b s chunks hlen b]
  cases a with
  | zero => rfl
  | succ a' =>
      have hcut : prodTake (List.replicate (a' + 1) 1 ++ s :: List.replicate b 1) (a' + 1) = 1 :=
        prodTake_spike_le (a' + 1) b s _ (by omega)
      show fstep (List.replicate (a' + 1) 1 ++ s :: List.replicate b 1) a'
          ((List.range
              (prodTake (List.replicate (a' + 1) 1 ++ s :: List.replicate b 1) (a' + 1))).map
            (fun ii => concatMany (a' + 1)
              (everyNth chunks ii
                (prodTake (List.replicate (a' + 1) 1 ++ s :: List.replicate b 1) (a' + 1))))) = _
      rw [hcut]
      have hr1 : List.range 1 = [0] := rfl
      rw [hr1, List.map_cons, List.map_nil, everyNth_zero_one]
      exact fstep_spike_low (a' + 1) b s _ a' (by omega)

/-- C9 (amended): the two readers agree whenever the tile grid is
non-trivial along at most one axis: with `a` leading and `b` trailing
single-tile axes and `s ≥ 1` tiles along the remaining axis, both assemble
exactly the concatenation of the tile list along that axis.  For grids with
two or more multi-tile axes they disagree in general (see the
counterexample): the eager reader groups tiles with stride (first storage
axis fastest in the flat tile order), the dask reader groups consecutive
tiles (last storage axis fastest). -/
theorem c9_readers_agree_single_axis {α : Type} [Inhabited α] (a b s : ℕ) (hs : 1 ≤ s)
    (chunks : List (NDArr α)) (hlen : chunks.length = s) :
    casa_image_array_reader_assemble (List.replicate a 1 ++ s :: List.replicate b 1) chunks =
        casa_image_dask_reader_assemble (List.replicate a 1 ++ s :: List.replicate b 1) chunks ∧
      casa_image_array_reader_assemble (List.replicate a 1 ++ s :: List.replicate b 1) chunks =
        concatMany a chunks := by
  have hd : casa_image_dask_reader_assemble (List.replicate a 1 ++ s :: List.replicate b 1) chunks
      = concatMany a chunks := by
    unfold casa_image_dask_reader_assemble
    have hlen3 : (List.replicate a 1 ++ s :: List.replicate b 1).length = a + 1 + b := by
      simp
      omega
    rw [hlen3, dstep_spike_eval a b s hs chunks hlen]
    rfl
  have hf : casa_image_array_reader_assemble (List.replicate a 1 ++ s :: List.replicate b 1) chunks
      = concatMany a chunks := by
    unfold casa_image_array_reader_assemble
    rw [fstep_spike_eval a b s chunks hlen]
    rfl
  exact ⟨hf.trans hd.symm, hf⟩

/-- C9 witness: the amended theorem applied to a 1×2×1 tile grid of two
concrete 1×1×1 tiles. -/
theorem c9_readers_agree_single_axis_witness :
    casa_image_array_reader_assemble (List.replicate 1 1 ++ 2 :: List.replicate 1 1)
        [⟨[1, 1, 1], fun _ => (0 : ℕ)⟩, ⟨[1, 1, 1], fun _ => 7⟩] =
        casa_image_dask_reader_assemble (List.replicate 1 1 ++ 2 :: List.replicate 1 1)
          [⟨[1, 1, 1], fun _ => (0 : ℕ)⟩, ⟨[1, 1, 1], fun _ => 7⟩] ∧
      casa_image_array_reader_assemble (List.replicate 1 1 ++ 2 :: List.replicate 1 1)
          [⟨[1, 1, 1], fun _ => (0 : ℕ)⟩, ⟨[1, 1, 1], fun _ => 7⟩] =
        concatMany 1 [⟨[1, 1, 1], fun _ => (0 : ℕ)⟩, ⟨[1, 1, 1], fun _ => 7⟩] :=
  c9_readers_agree_single_axis 1 1 2 (by decide)
    [⟨[1, 1, 1], fun _ => (0 : ℕ)⟩, ⟨[1, 1, 1], fun _ => 7⟩] (by decide)

theorem zipWith4_entry (sh : List ℕ) (v : List CasaSlice) :
    zipWith4 sliceIndices sh (v.map blcOf) (v.map trcOf) (v.map incOf) =
      List.zipWith entryIndices sh v := by
  induction sh generalizing v with
  | nil => cases v <;> rfl
  | cons L sh' ih =>
      cases v with
      | nil => rfl
      | cons e v' =>
          show entryIndices L e ::
              zipWith4 sliceIndices sh' (v'.map blcOf) (v'.map trcOf) (v'.map incOf) =
            entryIndices L e :: List.zipWith entryIndices sh' v'
          rw [ih v']

/-- Number of `true` entries: how many axes a keep-mask keeps. -/
def countTrue : List Bool → ℕ
  | [] => 0
  | true :: ks => countTrue ks + 1
  | false :: ks => countTrue ks

theorem countTrue_append (as bs : List Bool) :
    countTrue (as ++ bs) = countTrue as + countTrue bs := by
  induction as with
  | nil =>
      show countTrue bs = 0 + countTrue bs
      omega
  | cons k as' ih =>
      cases k with
      | true =>
          show countTrue (as' ++ bs) + 1 = countTrue as' + 1 + countTrue bs
          rw [ih]
          omega
      | false => exact ih

theorem countTrue_reverse (ks : List Bool) : countTrue ks.reverse = countTrue ks := by
  induction ks with
  | nil => rfl
  | cons k ks' ih =>
      rw [List.reverse_cons k ks', countTrue_append, ih]
      cases k with
      | true =>
          show countTrue ks' + (countTrue [] + 1) = countTrue ks' + 1
          rfl
      | false =>
          show countTrue ks' + countTrue [] = countTrue ks'
          rfl

theorem countTrue_isSlc (v : List CasaSlice) :
    countTrue (v.map CasaSlice.isSlc) = (v.filter CasaSlice.isSlc).length := by
  induction v with
  | nil => rfl
  | cons e v' ih =>
      cases e with
      | intIdx i =>
          show countTrue (v'.map CasaSlice.isSlc) = _
          rw [ih]
          rfl
      | slc a b c =>
          show countTrue (v'.map CasaSlice.isSlc) + 1 = _
          rw [ih]
          rfl

theorem inBoundsB_length (idx sh : List ℕ) (h : inBoundsB idx sh = true) :
    idx.length = sh.length := by
  induction idx generalizing sh with
  | nil =>
      cases sh with
      | nil => rfl
      | cons s ss => simp [inBoundsB] at h
  | cons i is ih =>
      cases sh with
      | nil => simp [inBoundsB] at h
      | cons s ss =>
          have h2 : inBoundsB is ss = true := by
            simp [inBoundsB] at h
            exact h.2
          simp [ih ss h2]

theorem expandIdx_length (ks : List Bool) (idx : List ℕ) :
    (expandIdx ks idx).length = ks.length := by
  induction ks generalizing idx with
  | nil => rfl
  | cons k ks' ih =>
      cases k with
      | true =>
          cases idx with
          | nil => simp [expandIdx, ih]
          | cons i is => simp [expandIdx, ih]
      | false => simp [expandIdx, ih]

theorem expandIdx_append (as bs : List Bool) (js : List ℕ) :
    expandIdx (as ++ bs) js = expandIdx as js ++ expandIdx bs (js.drop (countTrue as)) := by
  induction as generalizing js with
  | nil =>
      show expandIdx bs js = [] ++ expandIdx bs (js.drop 0)
      rw [List.drop_zero, List.nil_append]
  | cons k as' ih =>
      cases k with
      | true =>
          cases js with
          | nil =>
              show 0 :: expandIdx (as' ++ bs) [] =
                (0 :: expandIdx as' []) ++ expandIdx bs ([].drop (countTrue as' + 1))
              rw [ih [], List.drop_nil, List.drop_nil]
              rfl
          | cons j js' =>
              show j :: expandIdx (as' ++ bs) js' =
                (j :: expandIdx as' js') ++ expandIdx bs (js'.drop (countTrue as'))
              rw [ih js']
              rfl
      | false =>
          show 0 :: expandIdx (as' ++ bs) js =
            (0 :: expandIdx as' js) ++ expandIdx bs (js.drop (countTrue as'))
          rw [ih js]
          rfl

theorem expandIdx_irrel (as : List Bool) (js extra : List ℕ) (h : js.length = countTrue as) :
    expandIdx as (js ++ extra) = expandIdx as js := by
  induction as generalizing js with
  | nil => rfl
  | cons k as' ih =>
      cases k with
      | true =>
          cases js with
          | nil => simp [countTrue] at h
          | cons j js' =>
              show j :: expandIdx as' (js' ++ extra) = j :: expandIdx as' js'
              rw [ih js' (by simp [countTrue] at h; omega)]
      | false =>
          show 0 :: expandIdx as' (js ++ extra) = 0 :: expandIdx as' js
          rw [ih js (by simpa [countTrue] using h)]

theorem expandIdx_reverse (ks : List Bool) (idx : List ℕ) (h : idx.length = countTrue ks) :
    (expandIdx ks idx).reverse = expandIdx ks.reverse idx.reverse := by
  induction ks generalizing idx with
  | nil =>
      rw [List.eq_nil_of_length_eq_zero h]
      rfl
  | cons k ks' ih =>
      cases k with
      | true =>
          cases idx with
          | nil => simp [countTrue] at h
          | cons i is =>
              have his : is.length = countTrue ks' := by simp [countTrue] at h; omega
              show (i :: expandIdx ks' is).reverse = expandIdx (true :: ks').reverse (i :: is).reverse
              rw [List.reverse_cons i (expandIdx ks' is), List.reverse_cons true ks',
                List.reverse_cons i is]
              rw [expandIdx_append ks'.reverse [true] (is.reverse ++ [i])]
              rw [expandIdx_irrel ks'.reverse is.reverse [i]
                (by rw [List.length_reverse, countTrue_reverse]; exact his)]
              have hdrop : (is.reverse ++ [i]).drop (countTrue ks'.reverse) = [i] := by
                rw [countTrue_reverse, ← his, ← List.length_reverse is]
                exact List.drop_left is.reverse [i]
              rw [hdrop, ih is his]
              rfl
      | false =>
          show (0 :: expandIdx ks' idx).reverse = expandIdx (false :: ks').reverse idx.reverse
          rw [List.reverse_cons 0 (expandIdx ks' idx), List.reverse_cons false ks']
          rw [expandIdx_append ks'.reverse [false] idx.reverse]
          rw [ih idx (by simpa [countTrue] using h)]
          rfl

theorem filterKept_append (as bs : List Bool) (xs ys : List ℕ) (h : as.length = xs.length) :
    filterKept (as ++ bs) (xs ++ ys) = filterKept as xs ++ filterKept bs ys := by
  induction as generalizing xs with
  | nil =>
      rw [List.eq_nil_of_length_eq_zero h.symm]
      rfl
  | cons k as' ih =>
      cases xs with
      | nil => simp at h
      | cons x xs' =>
          have h' : as'.length = xs'.length := by simp at h; omega
          cases k with
          | true =>
              show x :: filterKept (as' ++ bs) (xs' ++ ys) =
                (x :: filterKept as' xs') ++ filterKept bs ys
              rw [ih xs' h']
              rfl
          | false =>
              show filterKept (as' ++ bs) (xs' ++ ys) = filterKept as' xs' ++ filterKept bs ys
              exact ih xs' h'

theorem filterKept_reverse (ks : List Bool) (xs : List ℕ) (h : ks.length = xs.length) :
    filterKept ks.reverse xs.reverse = (filterKept ks xs).reverse := by
  induction ks generalizing xs with
  | nil =>
      rw [List.eq_nil_of_length_eq_zero h.symm]
      rfl
  | cons k ks' ih =>
      cases xs with
      | nil => simp at h
      | cons x xs' =>
          have h' : ks'.length = xs'.length := by simp at h; omega
          rw [List.reverse_cons k ks', List.reverse_cons x xs']
          rw [filterKept_append ks'.reverse [k] xs'.reverse [x]
            (by rw [List.length_reverse, List.length_reverse]; exact h')]
          rw [ih xs' h']
          cases k with
          | true =>
              show (filterKept ks' xs').reverse ++ [x] = (x :: filterKept ks' xs').reverse
              rw [List.reverse_cons x (filterKept ks' xs')]
          | false =>
              show (filterKept ks' xs').reverse ++ [] = (filterKept ks' xs').reverse
              rw [List.append_nil]

theorem filterKept_reverse2 (ks : List Bool) (xs : List ℕ) (h : ks.length = xs.length) :
    filterKept ks xs.reverse = (filterKept ks.reverse xs).reverse := by
  have h2 := filterKept_reverse ks.reverse xs (by rw [List.length_reverse]; exact h)
  rw [List.reverse_reverse] at h2
  exact h2

theorem filterKept_length (ks : List Bool) (xs : List ℕ) (h : ks.length = xs.length) :
    (filterKept ks xs).length = countTrue ks := by
  induction ks generalizing xs with
  | nil =>
      rw [List.eq_nil_of_length_eq_zero h.symm]
      rfl
  | cons k ks' ih =>
      cases xs with
      | nil => simp at h
      | cons x xs' =>
          have h' : ks'.length = xs'.length := by simp at h; omega
          cases k with
          | true =>
              show (filterKept ks' xs').length + 1 = countTrue ks' + 1
              rw [ih xs' h']
          | false =>
              show (filterKept ks' xs').length = countTrue ks'
              exact ih xs' h'

theorem getitem_shape {α : Type} (A : NDArr α) (v : List CasaSlice) :
    (ArraylikeCasaData_getitem A v).shape =
      (filterKept (v.reverse.map CasaSlice.isSlc)
        ((List.zipWith entryIndices A.shape v.reverse).map List.length)).reverse := by
  show (filterKept (v.reverse.map CasaSlice.isSlc)
      ((zipWith4 sliceIndices A.shape (v.reverse.map blcOf) (v.reverse.map trcOf)
        (v.reverse.map incOf)).map List.length)).reverse = _
  rw [zipWith4_entry A.shape v.reverse]

theorem getitem_val {α : Type} (A : NDArr α) (v : List CasaSlice) (idx : List ℕ) :
    (ArraylikeCasaData_getitem A v).val idx =
      A.val (List.zipWith (fun l i => l.getD i 0) (List.zipWith entryIndices A.shape v.reverse)
        (expandIdx (v.reverse.map CasaSlice.isSlc) idx.reverse)) := by
  show A.val (List.zipWith (fun l i => l.getD i 0)
      (zipWith4 sliceIndices A.shape (v.reverse.map blcOf) (v.reverse.map trcOf)
        (v.reverse.map incOf))
      (expandIdx (v.reverse.map CasaSlice.isSlc) idx.reverse)) = _
  rw [zipWith4_entry A.shape v.reverse]

/-- C6: `__getitem__` presents the axes to the store in reverse of logical
order (its `blc`/`trc`/`inc` lists are the reversed entry-wise
translations), each integer entry collapses exactly its own axis — the
result rank equals the number of slice entries — while slice entries keep
their axes, and the returned data is the transpose back to logical order: it
coincides with the spec's direct logical-order selection performed on the
logical-order (transposed) array. -/
theorem c6_axis_order_and_collapse {α : Type} (A : NDArr α) (value0 : List CasaSlice)
    (hrank : value0.length = A.shape.length) :
    value0.reverse.map blcOf = (value0.map blcOf).reverse ∧
    value0.reverse.map trcOf = (value0.map trcOf).reverse ∧
    value0.reverse.map incOf = (value0.map incOf).reverse ∧
    (ArraylikeCasaData_getitem A value0).shape.length =
      (value0.filter CasaSlice.isSlc).length ∧
    NDEq (ArraylikeCasaData_getitem A value0) (logicalSelect (transposeArr A) value0) := by
  have hkeep : value0.reverse.map CasaSlice.isSlc = (value0.map CasaSlice.isSlc).reverse :=
    List.map_reverse _ _
  have haxSlen : (List.zipWith entryIndices A.shape value0.reverse).length = value0.length := by
    rw [List.length_zipWith, List.length_reverse, ← hrank, Nat.min_self]
  have hax : List.zipWith entryIndices (transposeArr A).shape value0 =
      (List.zipWith entryIndices A.shape value0.reverse).reverse := by
    show List.zipWith entryIndices A.shape.reverse value0 = _
    rw [List.reverse_zipWith (by rw [List.length_reverse]; exact hrank.symm)]
    rw [List.reverse_reverse]
  have hlenmask : (value0.reverse.map CasaSlice.isSlc).length =
      ((List.zipWith entryIndices A.shape value0.reverse).map List.length).length := by
    rw [List.length_map, List.length_map, List.length_reverse, haxSlen]
  have hranklen : (ArraylikeCasaData_getitem A value0).shape.length =
      (value0.filter CasaSlice.isSlc).length := by
    rw [getitem_shape A value0, List.length_reverse, filterKept_length _ _ hlenmask,
      hkeep, countTrue_reverse, countTrue_isSlc]
  refine ⟨List.map_reverse _ _, List.map_reverse _ _, List.map_reverse _ _, hranklen, ?_, ?_⟩
  · -- shapes agree
    rw [getitem_shape A value0]
    show _ = filterKept (value0.map CasaSlice.isSlc)
      ((List.zipWith entryIndices (transposeArr A).shape value0).map List.length)
    rw [hax, List.map_reverse List.length (List.zipWith entryIndices A.shape value0.reverse)]
    rw [filterKept_reverse2 (value0.map CasaSlice.isSlc)
      ((List.zipWith entryIndices A.shape value0.reverse).map List.length)
      (by rw [List.length_map, List.length_map, haxSlen])]
    rw [← hkeep]
  · -- values agree on in-bounds indices
    intro idx hidx
    have hidxlen : idx.length = countTrue (value0.map CasaSlice.isSlc) := by
      rw [inBoundsB_length idx _ hidx, hranklen, countTrue_isSlc]
    rw [getitem_val A value0 idx]
    show _ = A.val (List.reverse (List.zipWith (fun l i => l.getD i 0)
      (List.zipWith entryIndices (transposeArr A).shape value0)
      (expandIdx (value0.map CasaSlice.isSlc) idx)))
    have hlen2 : (List.zipWith entryIndices (transposeArr A).shape value0).length =
        (expandIdx (value0.map CasaSlice.isSlc) idx).length := by
      rw [hax, List.length_reverse, haxSlen, expandIdx_length, List.length_map]
    rw [List.reverse_zipWith hlen2]
    rw [expandIdx_reverse (value0.map CasaSlice.isSlc) idx hidxlen]
    rw [hax, List.reverse_reverse, ← hkeep]


/-- C6 witness: the theorem applied to a concrete 2×3 storage array and the
key `[1, 0:3]` (one integer entry, one slice entry). -/
theorem c6_axis_order_and_collapse_witness :
    [CasaSlice.intIdx 1, CasaSlice.slc none none none].reverse.map blcOf =
      ([CasaSlice.intIdx 1, CasaSlice.slc none none none].map blcOf).reverse ∧
    [CasaSlice.intIdx 1, CasaSlice.slc none none none].reverse.map trcOf =
      ([CasaSlice.intIdx 1, CasaSlice.slc none none none].map trcOf).reverse ∧
    [CasaSlice.intIdx 1, CasaSlice.slc none none none].reverse.map incOf =
      ([CasaSlice.intIdx 1, CasaSlice.slc none none none].map incOf).reverse ∧
    (ArraylikeCasaData_getitem (⟨[2, 3], fun _ => (0 : ℕ)⟩ : NDArr ℕ)
        [CasaSlice.intIdx 1, CasaSlice.slc none none none]).shape.length =
      ([CasaSlice.intIdx 1, CasaSlice.slc none none none].filter CasaSlice.isSlc).length ∧
    NDEq
      (ArraylikeCasaData_getitem (⟨[2, 3], fun _ => (0 : ℕ)⟩ : NDArr ℕ)
        [CasaSlice.intIdx 1, CasaSlice.slc none none none])
      (logicalSelect (transposeArr (⟨[2, 3], fun _ => (0 : ℕ)⟩ : NDArr ℕ))
        [CasaSlice.intIdx 1, CasaSlice.slc none none none]) :=
  c6_axis_order_and_collapse ⟨[2, 3], fun _ => (0 : ℕ)⟩
    [CasaSlice.intIdx 1, CasaSlice.slc none none none] (by decide)

end CasaImage
